import Mathlib

/-!
Shallow embedding of `scripts/dev/generate_config_types.py`: the schema-to-type
generator that turns a flat dotted-key configuration schema into nested Python
dataclass declarations.

The embedding keeps the source structure: `make_nested_config` groups dotted
keys into a nested tree, `_get_type_hint` / `get_type_hint` resolve a config
type descriptor to a Python type annotation string, and `generate_class` /
`generate_config_types` emit the dataclass source text line by line.

Python dictionaries are modelled as insertion-ordered association lists
(`NestedConfig`), matching CPython semantics: `setdefault` appends a fresh
key at the end, item assignment overwrites in place keeping the position.
Python exceptions are modelled with `Except String`.
-/

set_option maxRecDepth 4096

namespace GenConfigTypes

/-! ### Models of the Python string primitives used by the script -/

/-- Model of Python `str.split(sep)` for a one-character separator:
no collapsing of empty pieces, `"".split(sep) == [""]`. -/
def splitCharAux (sep : Char) : List Char → List Char → List String
  | [], acc => [String.mk acc.reverse]
  | c :: cs, acc =>
    if c = sep then String.mk acc.reverse :: splitCharAux sep cs []
    else splitCharAux sep cs (c :: acc)

/-- Split a string on a single-character separator, Python `str.split` style. -/
def splitChar (sep : Char) (s : String) : List String :=
  splitCharAux sep s.data []

/-- Model of Python `str.capitalize()`: first character uppercased, the rest
lowercased. -/
def pyCapitalize (s : String) : String :=
  match s.data with
  | [] => ""
  | c :: cs => String.mk (c.toUpper :: cs.map Char.toLower)

/-- Model of Python `repr` on a string as used for `Literal[...]` members
(quotes with single quotes; escaping is irrelevant for the identifiers that
occur as valid values). -/
def pyRepr (s : String) : String :=
  String.singleton '\'' ++ s ++ String.singleton '\''

/-- Model of Python `s.endswith(c)` for a one-character suffix: the last
character, if any, equals `c`. -/
def endsWithChar (c : Char) (s : String) : Bool :=
  match s.data.getLast? with
  | some d => d = c
  | none => false

/-- Model of Python `v.replace("\\+", "\\\\+")`: every backslash-plus pair is
replaced by double-backslash-plus, scanning left to right. -/
def replaceBackslashPlus : List Char → List Char
  | [] => []
  | '\\' :: '+' :: rest => '\\' :: '\\' :: '+' :: replaceBackslashPlus rest
  | c :: rest => c :: replaceBackslashPlus rest

/-! ### The type-descriptor model (`qutebrowser.config.configtypes`)

The descriptor classes are external collaborators of the script (the spec
treats them as a closed, enumerable set of kinds).  Each constructor mirrors
one `isinstance` target of `_get_type_hint`; every descriptor carries its
`none_ok` flag and the result of `get_valid_values()` (`none` models a falsy
result). -/

inductive ConfigType : Type where
  | listT (valtype : ConfigType) (noneOk : Bool) (vv : Option (List String))
  | dictT (keytype : ConfigType) (valtype : ConfigType) (noneOk : Bool) (vv : Option (List String))
  | boolT (noneOk : Bool) (vv : Option (List String))
  | mappingType (mappingKeys : List String) (noneOk : Bool) (vv : Option (List String))
  | stringT (noneOk : Bool) (vv : Option (List String))
  | fontBase (noneOk : Bool) (vv : Option (List String))
  | qtColor (noneOk : Bool) (vv : Option (List String))
  | qssColor (noneOk : Bool) (vv : Option (List String))
  | command (noneOk : Bool) (vv : Option (List String))
  | keyT (noneOk : Bool) (vv : Option (List String))
  | sessionName (noneOk : Bool) (vv : Option (List String))
  | url (noneOk : Bool) (vv : Option (List String))
  | fileT (noneOk : Bool) (vv : Option (List String))
  | urlPattern (noneOk : Bool) (vv : Option (List String))
  | formatString (noneOk : Bool) (vv : Option (List String))
  | directory (noneOk : Bool) (vv : Option (List String))
  | encoding (noneOk : Bool) (vv : Option (List String))
  | fuzzyUrl (noneOk : Bool) (vv : Option (List String))
  | searchEngineUrl (noneOk : Bool) (vv : Option (List String))
  | proxy (noneOk : Bool) (vv : Option (List String))
  | intT (noneOk : Bool) (vv : Option (List String))
  | floatT (noneOk : Bool) (vv : Option (List String))
  | listOrValue (valtype : ConfigType) (listtype : ConfigType) (noneOk : Bool) (vv : Option (List String))
  | perc (noneOk : Bool) (vv : Option (List String))
  | percOrInt (noneOk : Bool) (vv : Option (List String))
  | regex (noneOk : Bool) (vv : Option (List String))
  deriving DecidableEq, Repr

/-- The `none_ok` attribute of a descriptor. -/
def ConfigType.none_ok : ConfigType → Bool
  | .listT _ b _ => b
  | .dictT _ _ b _ => b
  | .boolT b _ => b
  | .mappingType _ b _ => b
  | .stringT b _ => b
  | .fontBase b _ => b
  | .qtColor b _ => b
  | .qssColor b _ => b
  | .command b _ => b
  | .keyT b _ => b
  | .sessionName b _ => b
  | .url b _ => b
  | .fileT b _ => b
  | .urlPattern b _ => b
  | .formatString b _ => b
  | .directory b _ => b
  | .encoding b _ => b
  | .fuzzyUrl b _ => b
  | .searchEngineUrl b _ => b
  | .proxy b _ => b
  | .intT b _ => b
  | .floatT b _ => b
  | .listOrValue _ _ b _ => b
  | .perc b _ => b
  | .percOrInt b _ => b
  | .regex b _ => b

/-- The result of the `get_valid_values()` call of a descriptor (`none`
models a falsy result, `some vs` a `ValidValues` object with members `vs`). -/
def ConfigType.get_valid_values : ConfigType → Option (List String)
  | .listT _ _ v => v
  | .dictT _ _ _ v => v
  | .boolT _ v => v
  | .mappingType _ _ v => v
  | .stringT _ v => v
  | .fontBase _ v => v
  | .qtColor _ v => v
  | .qssColor _ v => v
  | .command _ v => v
  | .keyT _ v => v
  | .sessionName _ v => v
  | .url _ v => v
  | .fileT _ v => v
  | .urlPattern _ v => v
  | .formatString _ v => v
  | .directory _ v => v
  | .encoding _ v => v
  | .fuzzyUrl _ v => v
  | .searchEngineUrl _ v => v
  | .proxy _ v => v
  | .intT _ v => v
  | .floatT _ v => v
  | .listOrValue _ _ _ v => v
  | .perc _ v => v
  | .percOrInt _ v => v
  | .regex _ v => v

/-- The `if valid_values: return Literal[...]` check of `_get_type_hint`,
which in the source runs once after the `List`/`Dict`/`Bool` branches and
before every remaining branch; here it is distributed over those remaining
constructors via this helper. -/
def validValuesHint (t : ConfigType) (fallback : String) : String :=
  match t.get_valid_values with
  | some vs => "Literal[" ++ String.intercalate ", " (vs.map pyRepr) ++ "]"
  | none => fallback

/-- The body of `get_type_hint` factored over an already-resolved inner
expression, so that the mutual recursion of the source (`_get_type_hint`
calls `get_type_hint` on component types) can be written as structural
recursion: `get_type_hint t = get_type_hint_of t (_get_type_hint t)`. -/
def get_type_hint_of (t : ConfigType) (inner : String) : String :=
  if t.none_ok then "Optional[" ++ inner ++ "]" else inner

/-- Embedding of `_get_type_hint`: resolve a descriptor to a type expression,
before the `none_ok` wrapping.  The branch order follows the source; the
`assert_never` at the end corresponds to exhaustiveness of the match.  The
recursive `get_type_hint` calls on component types appear inlined as
`get_type_hint_of c (_get_type_hint c)`. -/
def _get_type_hint : ConfigType → String
  | .listT valtype _ _ =>
      "list[" ++ get_type_hint_of valtype (_get_type_hint valtype) ++ "]"
  | .dictT keytype valtype _ _ =>
      "Mapping[" ++ get_type_hint_of keytype (_get_type_hint keytype) ++ ", "
        ++ get_type_hint_of valtype (_get_type_hint valtype) ++ "]"
  | .boolT _ _ => "bool"
  | t@(.mappingType keys _ _) =>
      validValuesHint t ("Literal[" ++ String.intercalate ", " (keys.map pyRepr) ++ "]")
  | t@(.stringT _ _) => validValuesHint t "str"
  | t@(.fontBase _ _) => validValuesHint t "str"
  | t@(.qtColor _ _) => validValuesHint t "str"
  | t@(.qssColor _ _) => validValuesHint t "str"
  | t@(.command _ _) => validValuesHint t "str"
  | t@(.keyT _ _) => validValuesHint t "str"
  | t@(.sessionName _ _) => validValuesHint t "str"
  | t@(.url _ _) => validValuesHint t "str"
  | t@(.fileT _ _) => validValuesHint t "str"
  | t@(.urlPattern _ _) => validValuesHint t "str"
  | t@(.formatString _ _) => validValuesHint t "str"
  | t@(.directory _ _) => validValuesHint t "str"
  | t@(.encoding _ _) => validValuesHint t "str"
  | t@(.fuzzyUrl _ _) => validValuesHint t "str"
  | t@(.searchEngineUrl _ _) => validValuesHint t "str"
  | t@(.proxy _ _) => validValuesHint t "str"
  | t@(.intT _ _) => validValuesHint t "int"
  | t@(.floatT _ _) => validValuesHint t "float"
  | t@(.listOrValue valtype listtype _ _) =>
      validValuesHint t
        ("Union[" ++ get_type_hint_of valtype (_get_type_hint valtype) ++ ", "
          ++ get_type_hint_of listtype (_get_type_hint listtype) ++ "]")
  | t@(.perc _ _) => validValuesHint t "Union[float, int, str]"
  | t@(.percOrInt _ _) => validValuesHint t "Union[int, str]"
  | t@(.regex _ _) => validValuesHint t "Union[str, re.Pattern[str]]"

/-- Embedding of `get_type_hint`: resolve the inner expression, then wrap it
in `Optional[...]` when the descriptor's `none_ok` flag is set. -/
def get_type_hint (t : ConfigType) : String :=
  get_type_hint_of t (_get_type_hint t)

/-! ### Option descriptors and the nested configuration tree -/

/-- The schema-level `Option` entry of `qutebrowser.config.configdata`
(an external collaborator): a type descriptor, a default value whose absence
is Python `None` (modelled by `Option.none`), and a documentation string.
The name `ConfigOption` avoids shadowing Lean's `Option`. -/
structure ConfigOption : Type where
  typ : ConfigType
  default : Option Unit
  description : String
  deriving DecidableEq, Repr

/-- The source's `NestedConfig = dict[str, Union[Option, NestedConfig]]`,
modelled as an insertion-ordered association list; the union of the value
type is encoded at the spine (`consOpt` binds a leaf `Option` descriptor,
`consDict` a nested dict), keeping every definition structurally
recursive. -/
inductive NestedConfig : Type where
  | nil : NestedConfig
  | consOpt (key : String) (o : ConfigOption) (rest : NestedConfig) : NestedConfig
  | consDict (key : String) (d : NestedConfig) (rest : NestedConfig) : NestedConfig
  deriving DecidableEq, Repr

/-- A value of the `NestedConfig` dict: either an `Option` descriptor or a
nested dict (the `Union[Option, NestedConfig]` of the source, as a view). -/
inductive NestedValue : Type where
  | opt (o : ConfigOption)
  | dict (d : NestedConfig)
  deriving DecidableEq, Repr

/-- Prepend one key/value binding (unfolds the `NestedValue` view). -/
def NestedConfig.cons (key : String) : NestedValue → NestedConfig → NestedConfig
  | .opt o, rest => .consOpt key o rest
  | .dict d, rest => .consDict key d rest

/-- Python `dict.get` / `in`: first (and only) binding of a key. -/
def NestedConfig.lookup : NestedConfig → String → Option NestedValue
  | .nil, _ => none
  | .consOpt k o rest, key => if k = key then some (.opt o) else rest.lookup key
  | .consDict k d rest, key => if k = key then some (.dict d) else rest.lookup key

/-- Python `dict` item assignment: overwrite in place when the key is
present (keeping its position), append at the end otherwise. -/
def NestedConfig.assign : NestedConfig → String → NestedValue → NestedConfig
  | .nil, key, v => .cons key v .nil
  | .consOpt k o rest, key, v =>
    if k = key then .cons k v rest else .consOpt k o (rest.assign key v)
  | .consDict k d rest, key, v =>
    if k = key then .cons k v rest else .consDict k d (rest.assign key v)

/-- The keys of a dict, in insertion order. -/
def NestedConfig.childNames : NestedConfig → List String
  | .nil => []
  | .consOpt k _ rest => k :: rest.childNames
  | .consDict k _ rest => k :: rest.childNames

/-- One iteration of the loop body of `make_nested_config` for a key already
split into its dot-separated parts:

```
current = result
for part in parts[:-1]:
    current = current.setdefault(part, {})
current[parts[-1]] = value
```

`setdefault` returning an `Option` (a leaf) makes the next dict operation on
it raise: `current[last] = value` raises `TypeError`, a further `setdefault`
raises `AttributeError`.  The final assignment itself never checks what it
overwrites. -/
def insertOption : NestedConfig → List String → ConfigOption → Except String NestedConfig
  | _, [], _ => .error "IndexError"
  | cfg, [last], value => .ok (cfg.assign last (.opt value))
  | cfg, p :: q :: rest, value =>
    match cfg.lookup p with
    | some (.opt _) => .error (if rest.isEmpty then "TypeError" else "AttributeError")
    | some (.dict sub) =>
      match insertOption sub (q :: rest) value with
      | .ok sub2 => .ok (cfg.assign p (.dict sub2))
      | .error e => .error e
    | none =>
      match insertOption .nil (q :: rest) value with
      | .ok sub2 => .ok (cfg.assign p (.dict sub2))
      | .error e => .error e

/-- The fold of `make_nested_config` over the input items, threading the
result dict. -/
def make_nested_config_go :
    List (String × ConfigOption) → NestedConfig → Except String NestedConfig
  | [], acc => .ok acc
  | (key, value) :: rest, acc =>
    match insertOption acc (splitChar '.' key) value with
    | .ok acc2 => make_nested_config_go rest acc2
    | .error e => .error e

/-- Embedding of `make_nested_config`: group the flat dotted-key mapping into
a nested dict, starting from an empty result. -/
def make_nested_config (config : List (String × ConfigOption)) :
    Except String NestedConfig :=
  make_nested_config_go config .nil

/-! ### The emitter -/

/-- Embedding of `snake_to_camel`. -/
def snake_to_camel (name : String) : String :=
  String.join ((splitChar '_' name).map pyCapitalize)

/-- Embedding of `literal` (defined in the source, unused by it). -/
def literal (v : String) : String :=
  "\"" ++ v ++ "\""

/-- Embedding of `triple_quote`: surround with triple double quotes, escaping
the `\+` sequences of option descriptions. -/
def triple_quote (v : String) : String :=
  "\"\"\"" ++ String.mk (replaceBackslashPlus v.data) ++ "\"\"\""

/-- The `i == 0` conditional of the description re-indentation:
`line if i == 0 else f"{indent}    {line}"` over the enumerated lines. -/
def reindentTail (indent : String) : List String → List String
  | [] => []
  | l :: ls => l :: ls.map (fun line => indent ++ "    " ++ line)

/-- The non-recursive head of `generate_class`: the `@dataclass` line, the
`class` line, and the optional class docstring. -/
def classHeader (class_name : String) (indent : String)
    (description : Option String) : List String :=
  let class_def := [indent ++ "@dataclass", indent ++ "class " ++ class_name ++ ":"]
  match description with
  | some d => class_def ++ [indent ++ "    " ++ triple_quote d]
  | none => class_def

/-- The `for key, value in config.items():` loop body of `generate_class`:
an `Option` leaf yields a field line (wrapped in `Optional[...]` when the
default is `None`) plus a docstring line when the description is nonempty;
a nested dict yields a field referencing the nested class followed by the
recursively generated nested class lines.  The source's mutual recursion
through `generate_class` appears here inlined as
`classHeader ... ++ genFields sub ...`. -/
def genFields : NestedConfig → String → List String
  | .nil, _ => []
  | .consOpt key value rest, indent =>
    let type_hint := get_type_hint value.typ
    let fieldLine :=
      if value.default = none then
        indent ++ "    " ++ key ++ ": Optional[" ++ type_hint ++ "]"
      else
        indent ++ "    " ++ key ++ ": " ++ type_hint
    let docLines :=
      if value.description ≠ "" then
        let lines := (splitChar '\n' value.description)
        let description := String.intercalate "\n\n" (reindentTail indent lines)
        let description :=
          if endsWithChar '\n' description = false ∧ 1 < lines.length then
            description ++ "\n" ++ indent ++ "    "
          else description
        [indent ++ "    " ++ triple_quote description ++ "\n"]
      else []
    fieldLine :: (docLines ++ genFields rest indent)
  | .consDict key sub rest, indent =>
    let nested_class_name := "_" ++ snake_to_camel key
    (indent ++ "    " ++ key ++ ": " ++ nested_class_name)
      :: ((classHeader nested_class_name (indent ++ "    ") none
            ++ genFields sub (indent ++ "    "))
          ++ genFields rest indent)

/-- Embedding of the nested `generate_class` function: the header lines, then
the fields generated from the dict. -/
def generate_class (class_name : String) (config : NestedConfig)
    (indent : String) (description : Option String) : List String :=
  classHeader class_name indent description ++ genFields config indent

/-- The module docstring of the generated file (the dedented, left-stripped
text passed to `triple_quote` at the top of `generate_config_types`). -/
def headerDoc : String :=
  "This file defines static types for the `c` variable in `config.py`.\n\nThis is auto-generated from the `scripts/dev/generate_config_types.py` file.\n\nIt is not intended to be used at runtime.\n\nExample usage:\n```py\nfrom typing import TYPE_CHECKING, cast\n\nif TYPE_CHECKING:\n    from qutebrowser.config.configfiles import ConfigAPI\n    from qutebrowser.config.configcontainer import ConfigContainer\n\n    # note: these expressions aren't executed at runtime\n    c = cast(ConfigContainer, ...)\n    config = cast(ConfigAPI, ...)\n```\n"

/-- The fixed `output` prelude of `generate_config_types`. -/
def headerLines : List String :=
  [triple_quote headerDoc,
   "",
   "# pylint: disable=line-too-long, invalid-name",
   "",
   "from __future__ import annotations",
   "import re",
   "from dataclasses import dataclass",
   "from collections.abc import Mapping",
   "from typing import Optional, Union, Literal",
   "",
   ""]

/-- Embedding of `generate_config_types`: prelude, then the `ConfigContainer`
class generated from the nested tree, joined with newlines.  The call to
`make_nested_config` can raise, hence `Except`. -/
def generate_config_types (config_data : List (String × ConfigOption)) :
    Except String String :=
  match make_nested_config config_data with
  | .error e => .error e
  | .ok nested_config =>
    .ok (String.intercalate "\n"
      (headerLines
        ++ generate_class "ConfigContainer" nested_config ""
             (some "Type for the `c` variable in `config.py`.")))

/-! ### Concrete fixtures -/

/-- A leaf `Option` with an integer type and a present default. -/
def intOpt : ConfigOption := ⟨.intT false none, some (), ""⟩

/-- A leaf `Option` with a boolean type and a present default. -/
def boolOpt : ConfigOption := ⟨.boolT false none, some (), ""⟩

/-- The `auto_save.session` option of the concrete scenario: boolean,
default present, documented. -/
def sessionOpt : ConfigOption := ⟨.boolT false none, some (), "Save session."⟩

/-- The `font.family` option of the concrete scenario: string-like, default
explicitly absent, empty documentation. -/
def familyOpt : ConfigOption := ⟨.stringT false none, none, ""⟩

/-- The input mapping of the concrete scenario of C2. -/
def c2input : List (String × ConfigOption) :=
  [("auto_save.session", sessionOpt), ("font.family", familyOpt)]

/-- The nested tree built from `c2input`. -/
def c2tree : NestedConfig :=
  .consDict "auto_save" (.consOpt "session" sessionOpt .nil)
    (.consDict "font" (.consOpt "family" familyOpt .nil) .nil)

/-- The root-class lines generated from `c2tree`. -/
def c2output : List String :=
  generate_class "ConfigContainer" c2tree ""
    (some "Type for the `c` variable in `config.py`.")

/-- The string-like descriptor family: the sixteen `isinstance` targets of
the `return "str"` branch of `_get_type_hint`. -/
def isStringLike : ConfigType → Bool
  | .stringT _ _ | .fontBase _ _ | .qtColor _ _ | .qssColor _ _
  | .command _ _ | .keyT _ _ | .sessionName _ _ | .url _ _
  | .fileT _ _ | .urlPattern _ _ | .formatString _ _ | .directory _ _
  | .encoding _ _ | .fuzzyUrl _ _ | .searchEngineUrl _ _ | .proxy _ _ => true
  | _ => false

/-! ### Observers on the nested tree

These definitions state properties of the Key Tree and of the emitted text;
they are not part of the source, only the vocabulary of the theorems. -/

/-- The node of a tree at a (possibly empty) segment path: the root is a
dict, descending follows `lookup` and stops at leaves. -/
def getNode : NestedConfig → List String → Option NestedValue
  | t, [] => some (.dict t)
  | t, s :: p =>
    match t.lookup s, p with
    | some v, [] => some v
    | some (.dict d), q :: r => getNode d (q :: r)
    | _, _ => none

/-- The child names of the dict at a path (empty if the path is absent or a
leaf). -/
def childNamesAt (t : NestedConfig) (p : List String) : List String :=
  match getNode t p with
  | some (.dict d) => d.childNames
  | _ => []

/-- Whether a leaf `Option` sits at the path. -/
def leafAt (t : NestedConfig) (p : List String) : Bool :=
  match getNode t p with
  | some (.opt _) => true
  | _ => false

/-- Whether a dict sits at the path (true at the root). -/
def dictAt (t : NestedConfig) (p : List String) : Bool :=
  match getNode t p with
  | some (.dict _) => true
  | _ => false

/-- When `parts` strictly extends the path `p`, the next segment after `p`;
`none` otherwise. -/
def segAfter : List String → List String → Option String
  | [], [] => none
  | [], s :: _ => some s
  | _ :: _, [] => none
  | a :: p, b :: q => if a = b then segAfter p q else none

/-- Whether the first segment list leads the second (weak inclusion:
equality counts). -/
def segLe : List String → List String → Bool
  | [], _ => true
  | _ :: _, [] => false
  | a :: p, b :: q => a = b && segLe p q

/-- Strict inclusion of segment paths. -/
def properSegPre (q parts : List String) : Prop :=
  segLe q parts = true ∧ q ≠ parts

/-- Append a name unless it is already present: the effect of one dotted
key on the sibling list of one tree node. -/
def seenInsert (xs : List String) (x : String) : List String :=
  if x ∈ xs then xs else xs ++ [x]

/-- First-occurrence order of a list of names. -/
def firstOcc (l : List String) : List String :=
  l.foldl seenInsert []

/-- The effect of one inserted key on one node's sibling list: when the key
descends through the node (`some s`), record the next segment once. -/
def applySeg (xs : List String) : Option String → List String
  | some s => seenInsert xs s
  | none => xs

/-- The dotted keys of the input mapping, split into segment paths. -/
def keyPaths (cfg : List (String × ConfigOption)) : List (List String) :=
  cfg.map (fun kv => splitChar '.' kv.1)

/-- The segments the input keys contribute directly below the path `p`, in
input order. -/
def nextSegs (p : List String) (paths : List (List String)) : List String :=
  paths.filterMap (segAfter p)

/-- Two key paths conflict-free: neither leads the other (this also rules
out equality). -/
def nonPre (a b : List String) : Bool :=
  !segLe a b && !segLe b a

/-- A conflict-free list of key paths: pairwise non-leading. -/
def pairwiseOK : List (List String) → Bool
  | [] => true
  | p :: rest => rest.all (fun q => nonPre p q) && pairwiseOK rest

/-- Colon test used to read a field name back out of an emitted line. -/
def notColon (c : Char) : Bool :=
  c ≠ ':'

/-- Python identifier characters (the emitted field names are config key
segments, which are identifiers). -/
def isIdentChar (c : Char) : Bool :=
  c.isAlphanum || c = '_'

/-- A well-formed key segment: nonempty and made of identifier characters. -/
def goodKey (k : String) : Bool :=
  !k.data.isEmpty && k.data.all isIdentChar

/-- Every key segment of the tree, at every level, is a well-formed
identifier. -/
def goodTree : NestedConfig → Bool
  | .nil => true
  | .consOpt k _ rest => goodKey k && goodTree rest
  | .consDict k d rest => goodKey k && goodTree d && goodTree rest

/-- Read the field name out of an emitted line, relative to the record's
indentation: a field line of a record indented by `ind` is exactly
`ind ++ "    " ++ name ++ ":" ++ ...` with an identifier name.  Header
lines, docstrings, and lines of deeper records do not parse. -/
def lineKey (ind : String) (l : String) : Option String :=
  let pre := ind.data ++ [' ', ' ', ' ', ' ']
  if l.data.take pre.length = pre then
    let cs := l.data.drop pre.length
    let key := cs.takeWhile notColon
    if key.isEmpty = false ∧ key.all isIdentChar = true ∧ key.length < cs.length then
      some (String.mk key)
    else none
  else none

/-- The field names of the record at indentation `ind`, read from the
emitted lines in order. -/
def extractFieldNames (ind : String) (out : List String) : List String :=
  out.filterMap (lineKey ind)

/-- Whether an emitted line is an `@dataclass` marker (one per emitted
record). -/
def isDataclassLine (l : String) : Bool :=
  l.data.dropWhile (fun c => c = ' ') = "@dataclass".data

/-- How many records a list of emitted lines contains. -/
def countDataclass (out : List String) : Nat :=
  (out.filter isDataclassLine).length

/-- A string made of spaces (an indentation). -/
def allSpaces (s : String) : Bool :=
  s.data.all (fun c => c = ' ')

/-- The number of internal nodes strictly below a node of the Key Tree
(each dict child, recursively). -/
def rcc : NestedConfig → Nat
  | .nil => 0
  | .consOpt _ _ rest => rcc rest
  | .consDict _ d rest => 1 + rcc d + rcc rest

/-- The input mapping of the ordering scenario of C4. -/
def c4input : List (String × ConfigOption) :=
  [("b.x", intOpt), ("a.y", intOpt), ("b.z", intOpt)]

/-- The subtree of `b` in the C4 scenario. -/
def c4subB : NestedConfig :=
  .consOpt "x" intOpt (.consOpt "z" intOpt .nil)

/-- The nested tree built from `c4input`. -/
def c4tree : NestedConfig :=
  .consDict "b" c4subB (.consDict "a" (.consOpt "y" intOpt .nil) .nil)

/-- The builder invariant: after inserting the keys with paths `paths` into
an empty dict, the children of every node sit in first-occurrence order of
the corresponding key segments, the leaves are exactly the key paths, and
the dicts are exactly the root and the strict prefixes of key paths. -/
def Inv (paths : List (List String)) (t : NestedConfig) : Prop :=
  (∀ p, childNamesAt t p = firstOcc (nextSegs p paths))
  ∧ (∀ q, leafAt t q = true ↔ q ∈ paths)
  ∧ (∀ q, dictAt t q = true ↔ (q = [] ∨ ∃ parts ∈ paths, properSegPre q parts))

/-! ### Helper lemmas: the ordered-dict operations -/

theorem lookup_cons (k : String) (v : NestedValue) (rest : NestedConfig) (s : String) :
    (NestedConfig.cons k v rest).lookup s = if k = s then some v else rest.lookup s := by
  cases v <;> rfl

theorem childNames_cons (k : String) (v : NestedValue) (rest : NestedConfig) :
    (NestedConfig.cons k v rest).childNames = k :: rest.childNames := by
  cases v <;> rfl

theorem lookup_assign (t : NestedConfig) (k : String) (v : NestedValue) (s : String) :
    (t.assign k v).lookup s = if k = s then some v else t.lookup s := by
  induction t with
  | nil =>
    rw [show NestedConfig.nil.assign k v = NestedConfig.cons k v .nil from rfl, lookup_cons]
  | consOpt k0 o rest ih =>
    simp only [NestedConfig.assign]
    by_cases h : k0 = k
    · rw [if_pos h, lookup_cons]
      subst h
      simp only [NestedConfig.lookup]
      split_ifs <;> rfl
    · rw [if_neg h]
      simp only [NestedConfig.lookup, ih]
      split_ifs <;> simp_all
  | consDict k0 d rest ihd ih =>
    simp only [NestedConfig.assign]
    by_cases h : k0 = k
    · rw [if_pos h, lookup_cons]
      subst h
      simp only [NestedConfig.lookup]
      split_ifs <;> rfl
    · rw [if_neg h]
      simp only [NestedConfig.lookup, ih]
      split_ifs <;> simp_all

theorem lookup_none_not_mem {t : NestedConfig} {k : String} (h : t.lookup k = none) :
    k ∉ t.childNames := by
  induction t with
  | nil => simp [NestedConfig.childNames]
  | consOpt k0 o rest ih =>
    simp only [NestedConfig.lookup] at h
    by_cases hk : k0 = k
    · simp [hk] at h
    · simp only [if_neg hk] at h
      simp only [NestedConfig.childNames, List.mem_cons]
      rintro (hh | hh)
      · exact hk hh.symm
      · exact ih h hh
  | consDict k0 d rest ihd ih =>
    simp only [NestedConfig.lookup] at h
    by_cases hk : k0 = k
    · simp [hk] at h
    · simp only [if_neg hk] at h
      simp only [NestedConfig.childNames, List.mem_cons]
      rintro (hh | hh)
      · exact hk hh.symm
      · exact ih h hh

theorem mem_of_lookup_some {t : NestedConfig} {k : String} {w : NestedValue}
    (h : t.lookup k = some w) : k ∈ t.childNames := by
  induction t with
  | nil => simp [NestedConfig.lookup] at h
  | consOpt k0 o rest ih =>
    simp only [NestedConfig.lookup] at h
    by_cases hk : k0 = k
    · simp [NestedConfig.childNames, hk]
    · simp only [if_neg hk] at h
      simp [NestedConfig.childNames, ih h]
  | consDict k0 d rest ihd ih =>
    simp only [NestedConfig.lookup] at h
    by_cases hk : k0 = k
    · simp [NestedConfig.childNames, hk]
    · simp only [if_neg hk] at h
      simp [NestedConfig.childNames, ih h]

theorem childNames_assign_none {t : NestedConfig} {k : String} (v : NestedValue)
    (h : t.lookup k = none) : (t.assign k v).childNames = t.childNames ++ [k] := by
  induction t with
  | nil =>
    rw [show NestedConfig.nil.assign k v = NestedConfig.cons k v .nil from rfl,
      childNames_cons]
    rfl
  | consOpt k0 o rest ih =>
    simp only [NestedConfig.lookup] at h
    by_cases hk : k0 = k
    · simp [hk] at h
    · simp only [if_neg hk] at h
      simp only [NestedConfig.assign, if_neg hk]
      simp [NestedConfig.childNames, ih h]
  | consDict k0 d rest ihd ih =>
    simp only [NestedConfig.lookup] at h
    by_cases hk : k0 = k
    · simp [hk] at h
    · simp only [if_neg hk] at h
      simp only [NestedConfig.assign, if_neg hk]
      simp [NestedConfig.childNames, ih h]

theorem childNames_assign_some {t : NestedConfig} {k : String} {w : NestedValue}
    (v : NestedValue) (h : t.lookup k = some w) :
    (t.assign k v).childNames = t.childNames := by
  induction t with
  | nil => simp [NestedConfig.lookup] at h
  | consOpt k0 o rest ih =>
    simp only [NestedConfig.lookup] at h
    by_cases hk : k0 = k
    · simp only [NestedConfig.assign, if_pos hk]
      rw [childNames_cons]
      simp [NestedConfig.childNames, hk]
    · simp only [if_neg hk] at h
      simp only [NestedConfig.assign, if_neg hk]
      simp [NestedConfig.childNames, ih h]
  | consDict k0 d rest ihd ih =>
    simp only [NestedConfig.lookup] at h
    by_cases hk : k0 = k
    · simp only [NestedConfig.assign, if_pos hk]
      rw [childNames_cons]
      simp [NestedConfig.childNames, hk]
    · simp only [if_neg hk] at h
      simp only [NestedConfig.assign, if_neg hk]
      simp [NestedConfig.childNames, ih h]

/-! ### Helper lemmas: `getNode` and the path observers -/

theorem getNode_nil_cons (s : String) (p : List String) :
    getNode .nil (s :: p) = none := by
  cases p <;> rfl

theorem getNode_single (t : NestedConfig) (s : String) :
    getNode t [s] = t.lookup s := by
  cases h : t.lookup s <;> simp [getNode, h]

theorem getNode_cons_dict {t : NestedConfig} {s : String} {d : NestedConfig}
    (h : t.lookup s = some (.dict d)) (p : List String) :
    getNode t (s :: p) = getNode d p := by
  cases p <;> simp [getNode, h]

theorem getNode_cons_opt {t : NestedConfig} {s : String} {o : ConfigOption}
    (h : t.lookup s = some (.opt o)) (q : String) (r : List String) :
    getNode t (s :: q :: r) = none := by
  simp [getNode, h]

theorem getNode_cons_none {t : NestedConfig} {s : String}
    (h : t.lookup s = none) (p : List String) :
    getNode t (s :: p) = none := by
  cases p <;> simp [getNode, h]

theorem getNode_congr {t₁ t₂ : NestedConfig} (s : String)
    (h : t₁.lookup s = t₂.lookup s) (p : List String) :
    getNode t₁ (s :: p) = getNode t₂ (s :: p) := by
  cases hv : t₂.lookup s with
  | none => rw [getNode_cons_none (h.trans hv), getNode_cons_none hv]
  | some v =>
    cases v with
    | opt o =>
      cases p with
      | nil => rw [getNode_single, getNode_single, h]
      | cons q r => rw [getNode_cons_opt (h.trans hv), getNode_cons_opt hv]
    | dict d => rw [getNode_cons_dict (h.trans hv), getNode_cons_dict hv]

theorem childNamesAt_nil (p : List String) : childNamesAt .nil p = [] := by
  cases p with
  | nil => rfl
  | cons s q => simp [childNamesAt, getNode_nil_cons]

theorem leafAt_nil (p : List String) : leafAt .nil p = false := by
  cases p with
  | nil => rfl
  | cons s q => simp [leafAt, getNode_nil_cons]

theorem dictAt_nil_cons (s : String) (q : List String) :
    dictAt .nil (s :: q) = false := by
  simp [dictAt, getNode_nil_cons]

/-! ### Helper lemmas: segment paths -/

theorem segLe_refl (p : List String) : segLe p p = true := by
  induction p with
  | nil => rfl
  | cons a q ih => simp [segLe, ih]

theorem segAfter_nil_right (p : List String) : segAfter p [] = none := by
  cases p <;> rfl

theorem properSegPre_cons {x : String} {q parts : List String} :
    properSegPre (x :: q) (x :: parts) ↔ properSegPre q parts := by
  simp [properSegPre, segLe]

theorem properSegPre_single {p₀ : String} {parts' : List String} (h : parts' ≠ []) :
    properSegPre [p₀] (p₀ :: parts') := by
  refine ⟨by simp [segLe], by simp [h.symm]⟩

theorem not_properSegPre_head_ne {s p₀ : String} {q parts' : List String}
    (h : s ≠ p₀) : ¬ properSegPre (s :: q) (p₀ :: parts') := by
  simp [properSegPre, segLe, h]

theorem not_properSegPre_cons_single {p₀ : String} {q : List String} (h : q ≠ []) :
    ¬ properSegPre (p₀ :: q) [p₀] := by
  cases q with
  | nil => exact absurd rfl h
  | cons a r => simp [properSegPre, segLe, segAfter_nil_right]

theorem properSegPre_nil {parts : List String} (h : parts ≠ []) :
    properSegPre [] parts :=
  ⟨rfl, fun hh => h hh.symm⟩

theorem childNamesAt_root (t : NestedConfig) : childNamesAt t [] = t.childNames := rfl

theorem leafAt_root (t : NestedConfig) : leafAt t [] = false := rfl

theorem dictAt_root (t : NestedConfig) : dictAt t [] = true := rfl

theorem childNamesAt_cons_dict {t : NestedConfig} {s : String} {d : NestedConfig}
    (h : t.lookup s = some (.dict d)) (p : List String) :
    childNamesAt t (s :: p) = childNamesAt d p := by
  unfold childNamesAt
  rw [getNode_cons_dict h]

theorem leafAt_cons_dict {t : NestedConfig} {s : String} {d : NestedConfig}
    (h : t.lookup s = some (.dict d)) (p : List String) :
    leafAt t (s :: p) = leafAt d p := by
  unfold leafAt
  rw [getNode_cons_dict h]

theorem dictAt_cons_dict {t : NestedConfig} {s : String} {d : NestedConfig}
    (h : t.lookup s = some (.dict d)) (p : List String) :
    dictAt t (s :: p) = dictAt d p := by
  unfold dictAt
  rw [getNode_cons_dict h]

theorem childNamesAt_cons_none {t : NestedConfig} {s : String}
    (h : t.lookup s = none) (p : List String) :
    childNamesAt t (s :: p) = [] := by
  unfold childNamesAt
  rw [getNode_cons_none h]

theorem leafAt_cons_none {t : NestedConfig} {s : String}
    (h : t.lookup s = none) (p : List String) :
    leafAt t (s :: p) = false := by
  unfold leafAt
  rw [getNode_cons_none h]

theorem dictAt_cons_none {t : NestedConfig} {s : String}
    (h : t.lookup s = none) (p : List String) :
    dictAt t (s :: p) = false := by
  unfold dictAt
  rw [getNode_cons_none h]

theorem childNamesAt_congr {t₁ t₂ : NestedConfig} (s : String)
    (h : t₁.lookup s = t₂.lookup s) (p : List String) :
    childNamesAt t₁ (s :: p) = childNamesAt t₂ (s :: p) := by
  unfold childNamesAt
  rw [getNode_congr s h]

theorem leafAt_congr {t₁ t₂ : NestedConfig} (s : String)
    (h : t₁.lookup s = t₂.lookup s) (p : List String) :
    leafAt t₁ (s :: p) = leafAt t₂ (s :: p) := by
  unfold leafAt
  rw [getNode_congr s h]

theorem dictAt_congr {t₁ t₂ : NestedConfig} (s : String)
    (h : t₁.lookup s = t₂.lookup s) (p : List String) :
    dictAt t₁ (s :: p) = dictAt t₂ (s :: p) := by
  unfold dictAt
  rw [getNode_congr s h]

theorem splitCharAux_ne_nil (sep : Char) (cs : List Char) (acc : List Char) :
    splitCharAux sep cs acc ≠ [] := by
  induction cs generalizing acc with
  | nil => simp [splitCharAux]
  | cons c rest ih =>
    simp only [splitCharAux]
    by_cases h : c = sep
    · simp [h]
    · simp only [if_neg h]
      exact ih _

theorem splitChar_ne_nil (sep : Char) (s : String) : splitChar sep s ≠ [] :=
  splitCharAux_ne_nil sep s.data []

/-! ### Helper lemmas: one insertion, characterized

Inserting a fresh, conflict-free key path into the tree appends the key's
next segment (once) to the sibling list of every node the path descends
through, adds exactly one leaf at the full path, turns exactly the strict
prefixes of the path into dicts, and leaves everything else unchanged. -/

theorem insertOption_spec (parts : List String) :
    ∀ (t : NestedConfig) (v : ConfigOption),
      parts ≠ [] →
      (∀ q, properSegPre q parts → leafAt t q = false) →
      getNode t parts = none →
      ∃ t', insertOption t parts v = .ok t'
        ∧ (∀ p, childNamesAt t' p = applySeg (childNamesAt t p) (segAfter p parts))
        ∧ (∀ q, leafAt t' q = true ↔ (leafAt t q = true ∨ q = parts))
        ∧ (∀ q, dictAt t' q = true ↔ (dictAt t q = true ∨ properSegPre q parts)) := by
  induction parts with
  | nil =>
    intro t v hne _ _
    exact absurd rfl hne
  | cons p₀ parts' ih =>
    intro t v _ hL hS
    cases parts' with
    | nil =>
      have hlk : t.lookup p₀ = none := by rwa [getNode_single] at hS
      refine ⟨t.assign p₀ (.opt v), rfl, ?_, ?_, ?_⟩
      · intro p
        cases p with
        | nil =>
          show (t.assign p₀ (.opt v)).childNames = applySeg t.childNames (some p₀)
          rw [childNames_assign_none _ hlk]
          simp [applySeg, seenInsert, lookup_none_not_mem hlk]
        | cons s p' =>
          by_cases hsp : s = p₀
          · subst hsp
            have hlk2 : (t.assign s (.opt v)).lookup s = some (.opt v) := by
              rw [lookup_assign]
              simp
            have hseg : segAfter (s :: p') [s] = none := by
              simp [segAfter, segAfter_nil_right]
            rw [hseg]
            simp only [applySeg]
            rw [childNamesAt_cons_none hlk p']
            cases p' with
            | nil =>
              unfold childNamesAt
              rw [getNode_single, hlk2]
            | cons q r =>
              unfold childNamesAt
              rw [getNode_cons_opt hlk2]
          · have hlke : (t.assign p₀ (.opt v)).lookup s = t.lookup s := by
              rw [lookup_assign, if_neg (fun hh => hsp hh.symm)]
            have hseg : segAfter (s :: p') [p₀] = none := by simp [segAfter, hsp]
            rw [hseg]
            simp only [applySeg]
            exact childNamesAt_congr s hlke p'
      · intro q
        cases q with
        | nil => simp [leafAt_root]
        | cons s q' =>
          by_cases hsp : s = p₀
          · subst hsp
            have hlk2 : (t.assign s (.opt v)).lookup s = some (.opt v) := by
              rw [lookup_assign]
              simp
            cases q' with
            | nil =>
              have hx : leafAt (t.assign s (.opt v)) [s] = true := by
                unfold leafAt
                rw [getNode_single, hlk2]
              simp [hx, leafAt_cons_none hlk]
            | cons q₂ r =>
              have hx : leafAt (t.assign s (.opt v)) (s :: q₂ :: r) = false := by
                unfold leafAt
                rw [getNode_cons_opt hlk2]
              simp [hx, leafAt_cons_none hlk]
          · have hlke : (t.assign p₀ (.opt v)).lookup s = t.lookup s := by
              rw [lookup_assign, if_neg (fun hh => hsp hh.symm)]
            rw [leafAt_congr s hlke q']
            simp [hsp]
      · intro q
        cases q with
        | nil => simp [dictAt_root]
        | cons s q' =>
          by_cases hsp : s = p₀
          · subst hsp
            have hlk2 : (t.assign s (.opt v)).lookup s = some (.opt v) := by
              rw [lookup_assign]
              simp
            cases q' with
            | nil =>
              have hx : dictAt (t.assign s (.opt v)) [s] = false := by
                unfold dictAt
                rw [getNode_single, hlk2]
              simp [hx, dictAt_cons_none hlk, properSegPre]
            | cons q₂ r =>
              have hx : dictAt (t.assign s (.opt v)) (s :: q₂ :: r) = false := by
                unfold dictAt
                rw [getNode_cons_opt hlk2]
              simp [hx, dictAt_cons_none hlk, not_properSegPre_cons_single]
          · have hlke : (t.assign p₀ (.opt v)).lookup s = t.lookup s := by
              rw [lookup_assign, if_neg (fun hh => hsp hh.symm)]
            rw [dictAt_congr s hlke q']
            simp [not_properSegPre_head_ne hsp]
    | cons q₁ rest' =>
      cases hlk : t.lookup p₀ with
      | some v0 =>
        cases v0 with
        | opt o =>
          exfalso
          have hp : properSegPre [p₀] (p₀ :: q₁ :: rest') := properSegPre_single (by simp)
          have hfalse := hL [p₀] hp
          unfold leafAt at hfalse
          rw [getNode_single, hlk] at hfalse
          simp at hfalse
        | dict d =>
          have hL2 : ∀ q, properSegPre q (q₁ :: rest') → leafAt d q = false := by
            intro q hq
            have hx := hL (p₀ :: q) (properSegPre_cons.mpr hq)
            rwa [leafAt_cons_dict hlk] at hx
          have hS2 : getNode d (q₁ :: rest') = none := by
            rw [← getNode_cons_dict hlk]
            exact hS
          obtain ⟨d', hins, hE1, hE2, hE3⟩ := ih d v (by simp) hL2 hS2
          have hlk2 : (t.assign p₀ (.dict d')).lookup p₀ = some (.dict d') := by
            rw [lookup_assign]
            simp
          refine ⟨t.assign p₀ (.dict d'), ?_, ?_, ?_, ?_⟩
          · simp [insertOption, hlk, hins]
          · intro p
            cases p with
            | nil =>
              show (t.assign p₀ (.dict d')).childNames = applySeg t.childNames (some p₀)
              rw [childNames_assign_some _ hlk]
              simp [applySeg, seenInsert, mem_of_lookup_some hlk]
            | cons s p' =>
              by_cases hsp : s = p₀
              · subst hsp
                have hseg : segAfter (s :: p') (s :: q₁ :: rest') =
                    segAfter p' (q₁ :: rest') := by simp [segAfter]
                rw [hseg, childNamesAt_cons_dict hlk2 p', childNamesAt_cons_dict hlk p']
                exact hE1 p'
              · have hlke : (t.assign p₀ (.dict d')).lookup s = t.lookup s := by
                  rw [lookup_assign, if_neg (fun hh => hsp hh.symm)]
                have hseg : segAfter (s :: p') (p₀ :: q₁ :: rest') = none := by
                  simp [segAfter, hsp]
                rw [hseg]
                simp only [applySeg]
                exact childNamesAt_congr s hlke p'
          · intro q
            cases q with
            | nil => simp [leafAt_root]
            | cons s q' =>
              by_cases hsp : s = p₀
              · subst hsp
                rw [leafAt_cons_dict hlk2 q', leafAt_cons_dict hlk q', hE2 q']
                simp [List.cons.injEq]
              · have hlke : (t.assign p₀ (.dict d')).lookup s = t.lookup s := by
                  rw [lookup_assign, if_neg (fun hh => hsp hh.symm)]
                rw [leafAt_congr s hlke q']
                simp [hsp]
          · intro q
            cases q with
            | nil => simp [dictAt_root]
            | cons s q' =>
              by_cases hsp : s = p₀
              · subst hsp
                rw [dictAt_cons_dict hlk2 q', dictAt_cons_dict hlk q', hE3 q']
                simp [properSegPre_cons]
              · have hlke : (t.assign p₀ (.dict d')).lookup s = t.lookup s := by
                  rw [lookup_assign, if_neg (fun hh => hsp hh.symm)]
                rw [dictAt_congr s hlke q']
                simp [not_properSegPre_head_ne hsp]
      | none =>
        obtain ⟨d', hins, hE1, hE2, hE3⟩ :=
          ih .nil v (by simp) (fun q _ => leafAt_nil q) (getNode_nil_cons _ _)
        have hlk2 : (t.assign p₀ (.dict d')).lookup p₀ = some (.dict d') := by
          rw [lookup_assign]
          simp
        refine ⟨t.assign p₀ (.dict d'), ?_, ?_, ?_, ?_⟩
        · simp [insertOption, hlk, hins]
        · intro p
          cases p with
          | nil =>
            show (t.assign p₀ (.dict d')).childNames = applySeg t.childNames (some p₀)
            rw [childNames_assign_none _ hlk]
            simp [applySeg, seenInsert, lookup_none_not_mem hlk]
          | cons s p' =>
            by_cases hsp : s = p₀
            · subst hsp
              have hseg : segAfter (s :: p') (s :: q₁ :: rest') =
                  segAfter p' (q₁ :: rest') := by simp [segAfter]
              rw [hseg, childNamesAt_cons_dict hlk2 p', childNamesAt_cons_none hlk p',
                hE1 p', childNamesAt_nil]
            · have hlke : (t.assign p₀ (.dict d')).lookup s = t.lookup s := by
                rw [lookup_assign, if_neg (fun hh => hsp hh.symm)]
              have hseg : segAfter (s :: p') (p₀ :: q₁ :: rest') = none := by
                simp [segAfter, hsp]
              rw [hseg]
              simp only [applySeg]
              exact childNamesAt_congr s hlke p'
        · intro q
          cases q with
          | nil => simp [leafAt_root]
          | cons s q' =>
            by_cases hsp : s = p₀
            · subst hsp
              rw [leafAt_cons_dict hlk2 q', hE2 q', leafAt_cons_none hlk q']
              simp [leafAt_nil, List.cons.injEq]
            · have hlke : (t.assign p₀ (.dict d')).lookup s = t.lookup s := by
                rw [lookup_assign, if_neg (fun hh => hsp hh.symm)]
              rw [leafAt_congr s hlke q']
              simp [hsp]
        · intro q
          cases q with
          | nil => simp [dictAt_root]
          | cons s q' =>
            by_cases hsp : s = p₀
            · subst hsp
              rw [dictAt_cons_dict hlk2 q', hE3 q', dictAt_cons_none hlk q']
              cases q' with
              | nil =>
                simp [dictAt_root, properSegPre_single (show (q₁ :: rest') ≠ [] by simp)]
              | cons c r =>
                simp [dictAt_nil_cons, properSegPre_cons]
            · have hlke : (t.assign p₀ (.dict d')).lookup s = t.lookup s := by
                rw [lookup_assign, if_neg (fun hh => hsp hh.symm)]
              rw [dictAt_congr s hlke q']
              simp [not_properSegPre_head_ne hsp]

/-! ### Helper lemmas: the builder invariant over the whole input -/

theorem firstOcc_append_single (l : List String) (s : String) :
    firstOcc (l ++ [s]) = seenInsert (firstOcc l) s := by
  simp [firstOcc, List.foldl_append]

theorem Inv_nil : Inv [] .nil := by
  refine ⟨fun p => ?_, fun q => ?_, fun q => ?_⟩
  · simp [childNamesAt_nil, nextSegs, firstOcc]
  · simp [leafAt_nil]
  · cases q with
    | nil => simp [dictAt_root]
    | cons s r => simp [dictAt_nil_cons]

theorem pairwiseOK_mem {xs ys : List (List String)}
    (h : pairwiseOK (xs ++ ys) = true) :
    ∀ x ∈ xs, ∀ y ∈ ys, nonPre x y = true := by
  induction xs with
  | nil => simp
  | cons p rest ihx =>
    simp only [List.cons_append, pairwiseOK, Bool.and_eq_true, List.all_eq_true] at h
    obtain ⟨hall, hrest⟩ := h
    intro x hx y hy
    rcases List.mem_cons.mp hx with heq | hmem
    · subst heq
      exact hall y (List.mem_append_right _ hy)
    · exact ihx hrest x hmem y hy

theorem fresh_of_inv {paths : List (List String)} {t : NestedConfig}
    {parts : List String}
    (hinv : Inv paths t) (hparts : parts ≠ [])
    (hc : ∀ q ∈ paths, nonPre q parts = true) :
    (∀ q, properSegPre q parts → leafAt t q = false) ∧ getNode t parts = none := by
  constructor
  · intro q hq
    by_contra hl
    have hl2 : leafAt t q = true := by
      cases hv : leafAt t q with
      | false => exact absurd hv hl
      | true => rfl
    have hmem : q ∈ paths := (hinv.2.1 q).mp hl2
    have hnp := hc q hmem
    simp only [nonPre, Bool.and_eq_true, Bool.not_eq_true'] at hnp
    exact absurd hq.1 (by simp [hnp.1])
  · cases hget : getNode t parts with
    | none => rfl
    | some w =>
      exfalso
      cases w with
      | opt o =>
        have hl2 : leafAt t parts = true := by
          unfold leafAt
          rw [hget]
        have hmem : parts ∈ paths := (hinv.2.1 parts).mp hl2
        have hnp := hc parts hmem
        simp [nonPre, segLe_refl] at hnp
      | dict d =>
        have hd2 : dictAt t parts = true := by
          unfold dictAt
          rw [hget]
        rcases (hinv.2.2 parts).mp hd2 with hemp | ⟨pp, hmem, hp⟩
        · exact hparts hemp
        · have hnp := hc pp hmem
          simp only [nonPre, Bool.and_eq_true, Bool.not_eq_true'] at hnp
          exact absurd hp.1 (by simp [hnp.2])

theorem Inv_insert {paths : List (List String)} {t : NestedConfig}
    {parts : List String} (v : ConfigOption)
    (hinv : Inv paths t) (hparts : parts ≠ [])
    (hc : ∀ q ∈ paths, nonPre q parts = true) :
    ∃ t', insertOption t parts v = .ok t' ∧ Inv (paths ++ [parts]) t' := by
  obtain ⟨hLf, hSf⟩ := fresh_of_inv hinv hparts hc
  obtain ⟨t', hins, hE1, hE2, hE3⟩ := insertOption_spec parts t v hparts hLf hSf
  refine ⟨t', hins, fun p => ?_, fun q => ?_, fun q => ?_⟩
  · rw [hE1 p, hinv.1 p]
    unfold nextSegs
    rw [List.filterMap_append]
    cases hseg : segAfter p parts with
    | none => simp [applySeg, List.filterMap, hseg, nextSegs]
    | some s =>
      simp [applySeg, List.filterMap, hseg, firstOcc_append_single]
  · rw [hE2 q, hinv.2.1 q]
    simp [List.mem_append]
  · rw [hE3 q, hinv.2.2 q]
    constructor
    · rintro ((h | ⟨pp, hmem, hp⟩) | hp)
      · exact Or.inl h
      · exact Or.inr ⟨pp, List.mem_append_left _ hmem, hp⟩
      · exact Or.inr ⟨parts, List.mem_append_right _ (List.mem_singleton_self _), hp⟩
    · rintro (h | ⟨pp, hmem, hp⟩)
      · exact Or.inl (Or.inl h)
      · rcases List.mem_append.mp hmem with hm | hm
        · exact Or.inl (Or.inr ⟨pp, hm, hp⟩)
        · rw [List.mem_singleton.mp hm] at hp
          exact Or.inr hp

theorem make_go_inv (keys : List (String × ConfigOption)) :
    ∀ (paths : List (List String)) (t res : NestedConfig),
      Inv paths t →
      pairwiseOK (paths ++ keyPaths keys) = true →
      make_nested_config_go keys t = .ok res →
      Inv (paths ++ keyPaths keys) res := by
  induction keys with
  | nil =>
    intro paths t res hinv _ hgo
    simp only [make_nested_config_go] at hgo
    cases hgo
    simpa [keyPaths] using hinv
  | cons kv rest ihk =>
    obtain ⟨key, value⟩ := kv
    intro paths t res hinv hp hgo
    have hmemhead : splitChar '.' key ∈ keyPaths ((key, value) :: rest) := by
      simp [keyPaths]
    have hc : ∀ q ∈ paths, nonPre q (splitChar '.' key) = true := by
      intro q hq
      exact pairwiseOK_mem hp q hq _ hmemhead
    obtain ⟨t', hins, hinv'⟩ := Inv_insert value hinv (splitChar_ne_nil _ _) hc
    simp only [make_nested_config_go, hins] at hgo
    have hsplit : paths ++ keyPaths ((key, value) :: rest) =
        (paths ++ [splitChar '.' key]) ++ keyPaths rest := by
      simp [keyPaths]
    rw [hsplit] at hp ⊢
    exact ihk _ t' res hinv' hp hgo

/-- The ordering theorem for the Key Tree Builder: on a conflict-free input,
the children of every node of the built tree sit in first-occurrence order
of the corresponding dotted-key segments of the input. -/
theorem make_nested_config_order {cfg : List (String × ConfigOption)}
    {t : NestedConfig}
    (hcf : pairwiseOK (keyPaths cfg) = true)
    (hok : make_nested_config cfg = .ok t) :
    ∀ p, childNamesAt t p = firstOcc (nextSegs p (keyPaths cfg)) := by
  have hres := make_go_inv cfg [] .nil t Inv_nil (by simpa using hcf) hok
  intro p
  simpa using hres.1 p

/-! ### Helper lemmas: reading field names back out of the emitted lines -/

theorem notColon_of_ident {c : Char} (h : isIdentChar c = true) : notColon c = true := by
  cases hc : notColon c with
  | true => rfl
  | false =>
    have hcc : c = ':' := by simpa [notColon] using hc
    subst hcc
    exact absurd h (by decide)

theorem ident_ne_space {c : Char} (h : isIdentChar c = true) : c ≠ ' ' := by
  rintro rfl
  exact absurd h (by decide)

theorem ident_ne_at {c : Char} (h : isIdentChar c = true) : c ≠ '@' := by
  rintro rfl
  exact absurd h (by decide)

theorem goodKey_spec {k : String} (h : goodKey k = true) :
    k.data ≠ [] ∧ k.data.all isIdentChar = true := by
  simp only [goodKey, Bool.and_eq_true, Bool.not_eq_true', List.isEmpty_eq_false] at h
  exact h

theorem takeWhile_notColon_append (xs : List Char) (h : xs.all isIdentChar = true)
    (ys : List Char) : (xs ++ ':' :: ys).takeWhile notColon = xs := by
  induction xs with
  | nil => simp [List.takeWhile_cons, notColon]
  | cons x xs ih =>
    simp only [List.all_cons, Bool.and_eq_true] at h
    simp [List.takeWhile_cons, notColon_of_ident h.1, ih h.2]

theorem lineKey_field (ind : String) {key u : String} (hkey : goodKey key = true)
    {cs : List Char} (hu : u.data = ':' :: cs) :
    lineKey ind (ind ++ "    " ++ key ++ u) = some key := by
  obtain ⟨hne, hall⟩ := goodKey_spec hkey
  have hdata : (ind ++ "    " ++ key ++ u).data =
      (ind.data ++ [' ', ' ', ' ', ' ']) ++ (key.data ++ ':' :: cs) := by
    simp [String.data_append, hu, List.append_assoc]
  have hcond : key.data.isEmpty = false ∧ key.data.all isIdentChar = true
      ∧ key.data.length < (key.data ++ ':' :: cs).length := by
    refine ⟨?_, hall, ?_⟩
    · rw [List.isEmpty_eq_false]
      exact hne
    · rw [List.length_append]
      simp only [List.length_cons]
      omega
  simp only [lineKey]
  rw [hdata, List.take_left, List.drop_left, if_pos rfl,
    takeWhile_notColon_append _ hall, if_pos hcond]

theorem lineKey_none_head (ind : String) {r : String} {c : Char} {cs : List Char}
    (hr : r.data = c :: cs) (hc : isIdentChar c = false) :
    lineKey ind (ind ++ "    " ++ r) = none := by
  have hdata : (ind ++ "    " ++ r).data =
      (ind.data ++ [' ', ' ', ' ', ' ']) ++ (c :: cs) := by
    simp [String.data_append, hr, List.append_assoc]
  simp only [lineKey]
  rw [hdata, List.take_left, List.drop_left, if_pos rfl]
  by_cases hcc : notColon c = true
  · rw [List.takeWhile_cons, if_pos hcc, if_neg]
    rintro ⟨-, hall, -⟩
    simp [List.all_cons, hc] at hall
  · rw [List.takeWhile_cons, if_neg hcc, if_neg]
    rintro ⟨hemp, -, -⟩
    simp at hemp

theorem lineKey_none_class (ind nm : String) :
    lineKey ind (ind ++ "    " ++ ("class " ++ nm ++ ":")) = none := by
  have hdata : (ind ++ "    " ++ ("class " ++ nm ++ ":")).data =
      (ind.data ++ [' ', ' ', ' ', ' '])
        ++ ('c' :: 'l' :: 'a' :: 's' :: 's' :: ' ' :: (nm.data ++ [':'])) := by
    simp [String.data_append, List.append_assoc]
  simp only [lineKey]
  rw [hdata, List.take_left, List.drop_left, if_pos rfl, if_neg]
  rintro ⟨-, hall, -⟩
  have h1 : notColon 'c' = true := by decide
  have h2 : notColon 'l' = true := by decide
  have h3 : notColon 'a' = true := by decide
  have h4 : notColon 's' = true := by decide
  have h5 : notColon ' ' = true := by decide
  have h6 : isIdentChar ' ' = false := by decide
  simp [List.takeWhile_cons, h1, h2, h3, h4, h5, List.all_cons, h6] at hall

theorem lineKey_none_flat (ind : String) {r : String}
    (h : r.data.take 4 ≠ [' ', ' ', ' ', ' ']) :
    lineKey ind (ind ++ r) = none := by
  simp only [lineKey, String.data_append]
  rw [if_neg]
  intro hcond
  rw [List.take_append_eq_append_take,
    List.take_of_length_le (by rw [List.length_append]; exact Nat.le_add_right _ _)] at hcond
  have hlen : (ind.data ++ [' ', ' ', ' ', ' ']).length - ind.data.length = 4 := by
    rw [List.length_append]
    simp only [List.length_cons, List.length_nil]
    omega
  rw [hlen] at hcond
  exact h (List.append_cancel_left hcond)

theorem allSpaces_append_four {w : String} (hw : allSpaces w = true) :
    allSpaces (w ++ "    ") = true := by
  simp only [allSpaces, String.data_append, List.all_append, Bool.and_eq_true]
  exact ⟨hw, by decide⟩

theorem spaces_four_head {w : String} (hw : allSpaces w = true) (x : String) :
    ∃ cs, (w ++ ("    " ++ x)).data = ' ' :: cs := by
  cases hwd : w.data with
  | nil =>
    refine ⟨' ' :: ' ' :: ' ' :: x.data, ?_⟩
    rw [String.data_append, hwd]
    rfl
  | cons c wd =>
    have hc : c = ' ' := by
      simp only [allSpaces, hwd, List.all_cons, Bool.and_eq_true] at hw
      exact of_decide_eq_true hw.1
    refine ⟨wd ++ ("    " ++ x).data, ?_⟩
    rw [String.data_append, hwd, hc]
    rfl

theorem lineKey_none_deep {ind w : String} (hw : allSpaces w = true) (x : String)
    {l : String} (hl : l = ind ++ "    " ++ (w ++ ("    " ++ x))) :
    lineKey ind l = none := by
  obtain ⟨cs, hcs⟩ := spaces_four_head hw x
  subst hl
  exact lineKey_none_head ind hcs (by decide)

theorem extract_cons_none {ind a : String} {l : List String}
    (h : lineKey ind a = none) :
    extractFieldNames ind (a :: l) = extractFieldNames ind l := by
  simp [extractFieldNames, List.filterMap_cons, h]

theorem extract_cons_some {ind a k : String} {l : List String}
    (h : lineKey ind a = some k) :
    extractFieldNames ind (a :: l) = k :: extractFieldNames ind l := by
  simp [extractFieldNames, List.filterMap_cons, h]

theorem extract_append (ind : String) (l₁ l₂ : List String) :
    extractFieldNames ind (l₁ ++ l₂) =
      extractFieldNames ind l₁ ++ extractFieldNames ind l₂ := by
  simp [extractFieldNames, List.filterMap_append]

theorem lineKey_none_deep_fieldOpt (ind w : String) (hw : allSpaces w = true)
    (key th : String) :
    lineKey ind (((ind ++ "    ") ++ w) ++ "    " ++ key ++ ": Optional[" ++ th ++ "]")
      = none :=
  lineKey_none_deep hw (key ++ (": Optional[" ++ (th ++ "]")))
    (by simp [String.append_assoc])

theorem lineKey_none_deep_fieldPlain (ind w : String) (hw : allSpaces w = true)
    (key th : String) :
    lineKey ind (((ind ++ "    ") ++ w) ++ "    " ++ key ++ ": " ++ th) = none :=
  lineKey_none_deep hw (key ++ (": " ++ th)) (by simp [String.append_assoc])

theorem lineKey_none_deep_doc (ind w : String) (hw : allSpaces w = true)
    (d : String) :
    lineKey ind (((ind ++ "    ") ++ w) ++ "    " ++ triple_quote d ++ "\n") = none :=
  lineKey_none_deep hw (triple_quote d ++ "\n") (by simp [String.append_assoc])

theorem lineKey_none_deep_dataclass (ind w : String) (hw : allSpaces w = true) :
    lineKey ind (((ind ++ "    ") ++ w) ++ "    " ++ "@dataclass") = none :=
  lineKey_none_deep hw "@dataclass" (by simp [String.append_assoc])

theorem lineKey_none_deep_class (ind w : String) (hw : allSpaces w = true)
    (nm : String) :
    lineKey ind (((ind ++ "    ") ++ w) ++ "    " ++ "class " ++ nm ++ ":") = none :=
  lineKey_none_deep hw ("class " ++ (nm ++ ":"))
    (String.ext (by simp [String.data_append, List.append_assoc]))

/-- Lines of a record nested strictly deeper than `ind ++ "    "` never
parse as field lines of the record at `ind`. -/
theorem extract_deep (t : NestedConfig) :
    ∀ (ind w : String), allSpaces w = true →
      extractFieldNames ind (genFields t ((ind ++ "    ") ++ w)) = [] := by
  induction t with
  | nil =>
    intro ind w hw
    rfl
  | consOpt key v rest ih =>
    intro ind w hw
    simp only [genFields]
    by_cases hdef : v.default = none <;> by_cases hdesc : v.description = "" <;>
      simp only [hdef, hdesc, ite_true, ite_false, ne_eq, not_true_eq_false,
        not_false_eq_true, if_true, if_false, List.singleton_append, List.nil_append]
    · rw [extract_cons_none (lineKey_none_deep_fieldOpt ind w hw key _)]
      exact ih ind w hw
    · rw [extract_cons_none (lineKey_none_deep_fieldOpt ind w hw key _),
        extract_cons_none (lineKey_none_deep_doc ind w hw _)]
      exact ih ind w hw
    · rw [extract_cons_none (lineKey_none_deep_fieldPlain ind w hw key _)]
      exact ih ind w hw
    · rw [extract_cons_none (lineKey_none_deep_fieldPlain ind w hw key _),
        extract_cons_none (lineKey_none_deep_doc ind w hw _)]
      exact ih ind w hw
  | consDict key sub rest ihsub ihrest =>
    intro ind w hw
    simp only [genFields, classHeader, List.cons_append, List.nil_append]
    rw [extract_cons_none (lineKey_none_deep_fieldPlain ind w hw key _),
      extract_cons_none (lineKey_none_deep_dataclass ind w hw),
      extract_cons_none (lineKey_none_deep_class ind w hw _),
      extract_append]
    have hshape : ((ind ++ "    ") ++ w) ++ "    " = (ind ++ "    ") ++ (w ++ "    ") := by
      simp [String.append_assoc]
    rw [hshape, ihsub ind (w ++ "    ") (allSpaces_append_four hw), ihrest ind w hw]
    rfl

theorem lineKey_fieldOpt_at (ind key th : String) (hk : goodKey key = true) :
    lineKey ind (ind ++ "    " ++ key ++ ": Optional[" ++ th ++ "]") = some key := by
  have hshape : ind ++ "    " ++ key ++ ": Optional[" ++ th ++ "]" =
      ind ++ "    " ++ key ++ (": Optional[" ++ (th ++ "]")) := by
    simp [String.append_assoc]
  rw [hshape]
  exact lineKey_field ind hk rfl

theorem lineKey_fieldPlain_at (ind key th : String) (hk : goodKey key = true) :
    lineKey ind (ind ++ "    " ++ key ++ ": " ++ th) = some key := by
  have hshape : ind ++ "    " ++ key ++ ": " ++ th =
      ind ++ "    " ++ key ++ (": " ++ th) := by
    simp [String.append_assoc]
  rw [hshape]
  exact lineKey_field ind hk rfl

theorem lineKey_doc_at (ind d : String) :
    lineKey ind (ind ++ "    " ++ triple_quote d ++ "\n") = none := by
  have hshape : ind ++ "    " ++ triple_quote d ++ "\n" =
      ind ++ "    " ++ (triple_quote d ++ "\n") := by
    simp [String.append_assoc]
  rw [hshape]
  exact lineKey_none_head ind rfl (by decide)

theorem lineKey_classdoc_at (ind d : String) :
    lineKey ind (ind ++ "    " ++ triple_quote d) = none :=
  lineKey_none_head ind rfl (by decide)

theorem lineKey_dataclass_at (ind : String) :
    lineKey ind (ind ++ "@dataclass") = none := by
  apply lineKey_none_flat
  decide

theorem lineKey_classline_at (ind nm : String) :
    lineKey ind (ind ++ "class " ++ nm ++ ":") = none := by
  have hshape : ind ++ "class " ++ nm ++ ":" = ind ++ ("class " ++ (nm ++ ":")) :=
    String.ext (by simp [String.data_append, List.append_assoc])
  rw [hshape]
  apply lineKey_none_flat
  have h4 : ("class " ++ (nm ++ ":")).data.take 4 = ['c', 'l', 'a', 's'] := rfl
  rw [h4]
  decide

theorem lineKey_nested_dataclass_at (ind : String) :
    lineKey ind (ind ++ "    " ++ "@dataclass") = none :=
  lineKey_none_head ind rfl (by decide)

theorem lineKey_nested_class_at (ind nm : String) :
    lineKey ind (ind ++ "    " ++ "class " ++ nm ++ ":") = none := by
  have hshape : ind ++ "    " ++ "class " ++ nm ++ ":" =
      ind ++ "    " ++ ("class " ++ nm ++ ":") :=
    String.ext (by simp [String.data_append, List.append_assoc])
  rw [hshape]
  exact lineKey_none_class ind nm

/-- The field names read out of the lines a record emits at its own
indentation are exactly the node's child names, in order. -/
theorem extract_genFields (t : NestedConfig) :
    ∀ ind : String, goodTree t = true →
      extractFieldNames ind (genFields t ind) = t.childNames := by
  induction t with
  | nil =>
    intro ind _
    rfl
  | consOpt key v rest ih =>
    intro ind hg
    simp only [goodTree, Bool.and_eq_true] at hg
    obtain ⟨hk, hrest⟩ := hg
    simp only [genFields]
    by_cases hdef : v.default = none <;> by_cases hdesc : v.description = "" <;>
      simp only [hdef, hdesc, ite_true, ite_false, ne_eq, not_true_eq_false,
        not_false_eq_true, if_true, if_false, List.singleton_append, List.nil_append]
    · rw [extract_cons_some (lineKey_fieldOpt_at ind key _ hk), ih ind hrest]
      rfl
    · rw [extract_cons_some (lineKey_fieldOpt_at ind key _ hk),
        extract_cons_none (lineKey_doc_at ind _), ih ind hrest]
      rfl
    · rw [extract_cons_some (lineKey_fieldPlain_at ind key _ hk), ih ind hrest]
      rfl
    · rw [extract_cons_some (lineKey_fieldPlain_at ind key _ hk),
        extract_cons_none (lineKey_doc_at ind _), ih ind hrest]
      rfl
  | consDict key sub rest ihsub ihrest =>
    intro ind hg
    simp only [goodTree, Bool.and_eq_true] at hg
    obtain ⟨⟨hk, hsubg⟩, hrest⟩ := hg
    simp only [genFields, classHeader, List.cons_append, List.nil_append]
    rw [extract_cons_some (lineKey_fieldPlain_at ind key _ hk),
      extract_cons_none (lineKey_nested_dataclass_at ind),
      extract_cons_none (lineKey_nested_class_at ind _),
      extract_append]
    have hdeep : extractFieldNames ind (genFields sub (ind ++ "    ")) = [] := by
      have hshape : genFields sub (ind ++ "    ") =
          genFields sub ((ind ++ "    ") ++ "") := by
        rw [String.append_empty]
      rw [hshape]
      exact extract_deep sub ind "" (by decide)
    rw [hdeep, ihrest ind hrest]
    rfl

/-- The field names of the whole emitted record at its indentation. -/
theorem extract_generate_class (nm : String) (t : NestedConfig) (ind : String)
    (d : Option String) (hg : goodTree t = true) :
    extractFieldNames ind (generate_class nm t ind d) = t.childNames := by
  cases d with
  | none =>
    simp only [generate_class, classHeader, List.cons_append, List.nil_append]
    rw [extract_cons_none (lineKey_dataclass_at ind),
      extract_cons_none (lineKey_classline_at ind nm)]
    exact extract_genFields t ind hg
  | some dd =>
    simp only [generate_class, classHeader, List.cons_append, List.nil_append,
      List.singleton_append, List.append_assoc]
    rw [extract_cons_none (lineKey_dataclass_at ind),
      extract_cons_none (lineKey_classline_at ind nm),
      extract_cons_none (lineKey_classdoc_at ind dd)]
    exact extract_genFields t ind hg

/-! ### Helper lemmas: counting emitted records -/

theorem dropWhile_spaces_append {w : List Char}
    (hw : w.all (fun c => c = ' ') = true) (r : List Char) :
    (w ++ r).dropWhile (fun c => c = ' ') = r.dropWhile (fun c => c = ' ') := by
  induction w with
  | nil => rfl
  | cons c wd ih =>
    simp only [List.all_cons, Bool.and_eq_true] at hw
    have hc : c = ' ' := of_decide_eq_true hw.1
    subst hc
    rw [List.cons_append, List.dropWhile_cons, if_pos (by decide)]
    exact ih hw.2

theorem isDataclassLine_spaces (w r : String) (hw : allSpaces w = true) :
    isDataclassLine (w ++ r) = isDataclassLine r := by
  simp only [allSpaces] at hw
  simp only [isDataclassLine, String.data_append]
  simp only [dropWhile_spaces_append hw]

theorem isDataclassLine_none_head {r : String} {c : Char} {cs : List Char}
    (hr : r.data = c :: cs) (hsp : c ≠ ' ') (hat : c ≠ '@') :
    isDataclassLine r = false := by
  simp only [isDataclassLine, hr]
  rw [List.dropWhile_cons, if_neg (by simp [hsp])]
  apply decide_eq_false
  intro heq
  injection heq with h1 _
  exact hat h1

theorem isDcl_marker_at (ind : String) (hind : allSpaces ind = true) :
    isDataclassLine (ind ++ "@dataclass") = true := by
  rw [isDataclassLine_spaces ind _ hind]
  decide

theorem isDcl_class_at (ind nm : String) (hind : allSpaces ind = true) :
    isDataclassLine (ind ++ "class " ++ nm ++ ":") = false := by
  have hshape : ind ++ "class " ++ nm ++ ":" = ind ++ ("class " ++ (nm ++ ":")) :=
    String.ext (by simp [String.data_append, List.append_assoc])
  rw [hshape, isDataclassLine_spaces ind _ hind]
  exact isDataclassLine_none_head rfl (by decide) (by decide)

theorem isDcl_fieldOpt (ind key th : String) (hind : allSpaces ind = true)
    (hk : goodKey key = true) :
    isDataclassLine (ind ++ "    " ++ key ++ ": Optional[" ++ th ++ "]") = false := by
  have hshape : ind ++ "    " ++ key ++ ": Optional[" ++ th ++ "]" =
      (ind ++ "    ") ++ (key ++ (": Optional[" ++ (th ++ "]"))) :=
    String.ext (by simp [String.data_append, List.append_assoc])
  rw [hshape, isDataclassLine_spaces _ _ (allSpaces_append_four hind)]
  obtain ⟨hne, hall⟩ := goodKey_spec hk
  cases hd : key.data with
  | nil => exact absurd hd hne
  | cons c cs2 =>
    have hc : isIdentChar c = true := by
      rw [hd] at hall
      simp only [List.all_cons, Bool.and_eq_true] at hall
      exact hall.1
    refine @isDataclassLine_none_head _ c (cs2 ++ (": Optional[" ++ (th ++ "]")).data)
      ?_ (ident_ne_space hc) (ident_ne_at hc)
    rw [String.data_append, hd]
    rfl

theorem isDcl_fieldPlain (ind key th : String) (hind : allSpaces ind = true)
    (hk : goodKey key = true) :
    isDataclassLine (ind ++ "    " ++ key ++ ": " ++ th) = false := by
  have hshape : ind ++ "    " ++ key ++ ": " ++ th =
      (ind ++ "    ") ++ (key ++ (": " ++ th)) :=
    String.ext (by simp [String.data_append, List.append_assoc])
  rw [hshape, isDataclassLine_spaces _ _ (allSpaces_append_four hind)]
  obtain ⟨hne, hall⟩ := goodKey_spec hk
  cases hd : key.data with
  | nil => exact absurd hd hne
  | cons c cs2 =>
    have hc : isIdentChar c = true := by
      rw [hd] at hall
      simp only [List.all_cons, Bool.and_eq_true] at hall
      exact hall.1
    refine @isDataclassLine_none_head _ c (cs2 ++ (": " ++ th).data)
      ?_ (ident_ne_space hc) (ident_ne_at hc)
    rw [String.data_append, hd]
    rfl

theorem isDcl_doc (ind d : String) (hind : allSpaces ind = true) :
    isDataclassLine (ind ++ "    " ++ triple_quote d ++ "\n") = false := by
  have hshape : ind ++ "    " ++ triple_quote d ++ "\n" =
      (ind ++ "    ") ++ (triple_quote d ++ "\n") :=
    String.ext (by simp [String.data_append, List.append_assoc])
  rw [hshape, isDataclassLine_spaces _ _ (allSpaces_append_four hind)]
  exact isDataclassLine_none_head rfl (by decide) (by decide)

theorem isDcl_classdoc (ind d : String) (hind : allSpaces ind = true) :
    isDataclassLine (ind ++ "    " ++ triple_quote d) = false := by
  have hshape : ind ++ "    " ++ triple_quote d =
      (ind ++ "    ") ++ triple_quote d :=
    String.ext (by simp [String.data_append, List.append_assoc])
  rw [hshape, isDataclassLine_spaces _ _ (allSpaces_append_four hind)]
  exact isDataclassLine_none_head rfl (by decide) (by decide)

theorem countDataclass_cons_true {a : String} {l : List String}
    (h : isDataclassLine a = true) :
    countDataclass (a :: l) = 1 + countDataclass l := by
  simp [countDataclass, List.filter_cons, h, Nat.add_comm]

theorem countDataclass_cons_false {a : String} {l : List String}
    (h : isDataclassLine a = false) :
    countDataclass (a :: l) = countDataclass l := by
  simp [countDataclass, List.filter_cons, h]

theorem countDataclass_append (l₁ l₂ : List String) :
    countDataclass (l₁ ++ l₂) = countDataclass l₁ + countDataclass l₂ := by
  simp [countDataclass, List.filter_append]

/-- A node's lines contain exactly one `@dataclass` marker per internal node
of its subtree. -/
theorem countDataclass_genFields (t : NestedConfig) :
    ∀ ind : String, goodTree t = true → allSpaces ind = true →
      countDataclass (genFields t ind) = rcc t := by
  induction t with
  | nil =>
    intro ind _ _
    rfl
  | consOpt key v rest ih =>
    intro ind hg hind
    simp only [goodTree, Bool.and_eq_true] at hg
    obtain ⟨hk, hrest⟩ := hg
    simp only [genFields]
    by_cases hdef : v.default = none <;> by_cases hdesc : v.description = "" <;>
      simp only [hdef, hdesc, ite_true, ite_false, ne_eq, not_true_eq_false,
        not_false_eq_true, if_true, if_false, List.singleton_append, List.nil_append]
    · rw [countDataclass_cons_false (isDcl_fieldOpt ind key _ hind hk)]
      exact ih ind hrest hind
    · rw [countDataclass_cons_false (isDcl_fieldOpt ind key _ hind hk),
        countDataclass_cons_false (isDcl_doc ind _ hind)]
      exact ih ind hrest hind
    · rw [countDataclass_cons_false (isDcl_fieldPlain ind key _ hind hk)]
      exact ih ind hrest hind
    · rw [countDataclass_cons_false (isDcl_fieldPlain ind key _ hind hk),
        countDataclass_cons_false (isDcl_doc ind _ hind)]
      exact ih ind hrest hind
  | consDict key sub rest ihsub ihrest =>
    intro ind hg hind
    simp only [goodTree, Bool.and_eq_true] at hg
    obtain ⟨⟨hk, hsubg⟩, hrest⟩ := hg
    simp only [genFields, classHeader, List.cons_append, List.nil_append]
    rw [countDataclass_cons_false (isDcl_fieldPlain ind key _ hind hk),
      countDataclass_cons_true (isDcl_marker_at (ind ++ "    ") (allSpaces_append_four hind)),
      countDataclass_cons_false (isDcl_class_at (ind ++ "    ") _ (allSpaces_append_four hind)),
      countDataclass_append,
      ihsub (ind ++ "    ") hsubg (allSpaces_append_four hind),
      ihrest ind hrest hind]
    simp [rcc, Nat.add_assoc]

/-- The whole emitted record: one `@dataclass` marker for the record itself
plus one per internal descendant node. -/
theorem countDataclass_generate_class (nm : String) (t : NestedConfig)
    (ind : String) (d : Option String)
    (hg : goodTree t = true) (hind : allSpaces ind = true) :
    countDataclass (generate_class nm t ind d) = 1 + rcc t := by
  cases d with
  | none =>
    simp only [generate_class, classHeader, List.cons_append, List.nil_append]
    rw [countDataclass_cons_true (isDcl_marker_at ind hind),
      countDataclass_cons_false (isDcl_class_at ind nm hind),
      countDataclass_genFields t ind hg hind]
  | some dd =>
    simp only [generate_class, classHeader, List.cons_append, List.nil_append,
      List.singleton_append, List.append_assoc]
    rw [countDataclass_cons_true (isDcl_marker_at ind hind),
      countDataclass_cons_false (isDcl_class_at ind nm hind),
      countDataclass_cons_false (isDcl_classdoc ind dd hind),
      countDataclass_genFields t ind hg hind]

/-! ### Claim theorems -/

/-- C1: the claim says a prefix collision between two dotted keys (such as
`net.timeout` and `net.timeout.retries`, in either order) raises a
schema-conflict failure naming the offending key and never silently
overwrites.  The code does neither: with the namespace built first, the
later leaf assignment silently replaces the whole `net.timeout` namespace
(the builder returns successfully and the `retries` subtree is lost), and
in the opposite order the builder dies with a bare dynamic `TypeError`
carrying no key name. -/
theorem c1_collision_not_raised :
    make_nested_config [("net.timeout.retries", intOpt), ("net.timeout", boolOpt)] =
      .ok (.consDict "net" (.consOpt "timeout" boolOpt .nil) .nil)
    ∧ make_nested_config [("net.timeout", boolOpt), ("net.timeout.retries", intOpt)] =
      .error "TypeError" :=
  ⟨rfl, rfl⟩

/-- C2 counterexample: on the concrete scenario input the root record's
`auto_save` field is typed `_AutoSave`, not `AutoSave` as the claim states
(nested class names carry a leading underscore), and no line of the output
types it `AutoSave`. -/
theorem c2_counterexample_underscore_names :
    make_nested_config c2input = .ok c2tree
    ∧ ("    auto_save: _AutoSave" ∈ c2output)
    ∧ ¬ ("    auto_save: AutoSave" ∈ c2output) := by
  refine ⟨rfl, ?_, ?_⟩ <;> decide

/-- C2 amended: the concrete scenario produces exactly the claimed record
structure with the nested record types named `_AutoSave` and `_Font`
(leading underscore): root fields `auto_save: _AutoSave` and `font: _Font`,
record `_AutoSave` with field `session: bool` documented `Save session.`,
record `_Font` with field `family: Optional[str]` and no documentation. -/
theorem c2_amended_concrete_scenario :
    make_nested_config c2input = .ok c2tree
    ∧ c2output =
      ["@dataclass",
       "class ConfigContainer:",
       "    \"\"\"Type for the `c` variable in `config.py`.\"\"\"",
       "    auto_save: _AutoSave",
       "    @dataclass",
       "    class _AutoSave:",
       "        session: bool",
       "        \"\"\"Save session.\"\"\"\n",
       "    font: _Font",
       "    @dataclass",
       "    class _Font:",
       "        family: Optional[str]"] :=
  ⟨rfl, rfl⟩

/-- C3: when a descriptor's `none_ok` flag is set the resolved type is the
`Optional[...]` wrapper around the fully resolved inner expression, for
every kind; in particular a nullable `List(Int)` resolves to
`Optional[list[int]]` and not to `list[Optional[int]]`. -/
theorem c3_nullable_wraps_outermost :
    (∀ t : ConfigType, t.none_ok = true →
        get_type_hint t = "Optional[" ++ _get_type_hint t ++ "]")
    ∧ get_type_hint (.listT (.intT false none) true none) = "Optional[list[int]]"
    ∧ get_type_hint (.listT (.intT false none) true none) ≠ "list[Optional[int]]" := by
  refine ⟨fun t h => ?_, rfl, by decide⟩
  simp [get_type_hint, get_type_hint_of, h]

/-- C4: sibling fields of every emitted record appear in first-occurrence
order of their name segments in the input.  The first conjunct runs the
concrete `["b.x", "a.y", "b.z"]` scenario: root order `b`, `a` and record
`_B` order `x`, `z`, both in the tree and in the emitted field lines.  The
second conjunct is the general tree statement for conflict-free inputs:
the children of the node at every path sit in first-occurrence order of
the input keys' next segments.  The third conjunct is the general emission
statement: the field lines of the record emitted for any node (every
record in the output is `generate_class` applied to its node) list the
node's children in tree order, for identifier-shaped keys. -/
theorem c4_sibling_first_occurrence_order :
    (make_nested_config c4input = .ok c4tree
      ∧ childNamesAt c4tree [] = ["b", "a"]
      ∧ childNamesAt c4tree ["b"] = ["x", "z"]
      ∧ extractFieldNames "" (generate_class "ConfigContainer" c4tree "" none) =
          ["b", "a"]
      ∧ extractFieldNames "    " (generate_class "_B" c4subB "    " none) =
          ["x", "z"])
    ∧ (∀ (cfg : List (String × ConfigOption)) (t : NestedConfig),
        pairwiseOK (keyPaths cfg) = true → make_nested_config cfg = .ok t →
        ∀ p, childNamesAt t p = firstOcc (nextSegs p (keyPaths cfg)))
    ∧ (∀ (class_name ind : String) (t : NestedConfig) (d : Option String),
        goodTree t = true →
        extractFieldNames ind (generate_class class_name t ind d) = t.childNames) := by
  refine ⟨⟨rfl, rfl, rfl, rfl, rfl⟩, ?_, ?_⟩
  · exact fun cfg t hcf hok => make_nested_config_order hcf hok
  · exact fun class_name ind t d hg => extract_generate_class class_name t ind d hg

/-- C5: a leaf option whose default is explicitly absent gets its field type
wrapped in `Optional[...]` around the full resolved hint (whatever the
`none_ok` flag); a leaf option with a present default and `none_ok` unset
gets the bare resolved expression.  The two concrete conjuncts instantiate
each case. -/
theorem c5_default_absence_wraps_field :
    (∀ (indent key : String) (v : ConfigOption) (rest : NestedConfig),
        v.default = none →
        (genFields (.consOpt key v rest) indent).head? =
          some (indent ++ "    " ++ key ++ ": Optional[" ++ get_type_hint v.typ ++ "]"))
    ∧ (∀ (indent key : String) (v : ConfigOption) (rest : NestedConfig) (u : Unit),
        v.default = some u → v.typ.none_ok = false →
        (genFields (.consOpt key v rest) indent).head? =
          some (indent ++ "    " ++ key ++ ": " ++ _get_type_hint v.typ))
    ∧ (genFields (.consOpt "family" familyOpt .nil) "").head? =
        some ("    family: Optional[str]")
    ∧ (genFields (.consOpt "session" sessionOpt .nil) "").head? =
        some ("    session: bool") := by
  refine ⟨fun indent key v rest h => ?_, fun indent key v rest u h hn => ?_, rfl, rfl⟩
  · simp [genFields, h]
  · simp [genFields, h, get_type_hint, get_type_hint_of, hn]

/-- C6: with no fixed valid values (the spec's Enumerated kind is separate),
a non-nullable `Perc` resolves to `Union[float, int, str]`, and the
pre-nullability resolver maps `PercOrInt` to `Union[int, str]` and `Regex`
to `Union[str, re.Pattern[str]]` for either `none_ok` flag. -/
theorem c6_numeric_and_regex_unions :
    get_type_hint (.perc false none) = "Union[float, int, str]"
    ∧ (∀ b : Bool, _get_type_hint (.percOrInt b none) = "Union[int, str]")
    ∧ (∀ b : Bool, _get_type_hint (.regex b none) = "Union[str, re.Pattern[str]]") :=
  ⟨rfl, fun _ => rfl, fun _ => rfl⟩

/-- C7: every descriptor of the string-like family (plain string, font,
the two color kinds, command, key sequence, session name, URL, file path,
URL pattern, format string, directory, encoding, fuzzy URL, search-engine
URL, proxy) with `none_ok` unset and no fixed valid values resolves to
`str`; the two concrete conjuncts instantiate the first and last family
member. -/
theorem c7_string_like_resolves_to_str :
    (∀ t : ConfigType, isStringLike t = true → t.none_ok = false →
        t.get_valid_values = none → get_type_hint t = "str")
    ∧ get_type_hint (.stringT false none) = "str"
    ∧ get_type_hint (.proxy false none) = "str" := by
  refine ⟨fun t h1 h2 h3 => ?_, rfl, rfl⟩
  cases t <;>
    simp_all [isStringLike, get_type_hint, get_type_hint_of, _get_type_hint,
      validValuesHint, ConfigType.none_ok, ConfigType.get_valid_values]

/-- C8: the generator is a deterministic pure function of its input
mapping: two runs on the same schema snapshot give the same result; the
concrete conjunct runs the full pipeline (header plus generated classes)
on the concrete scenario. -/
theorem c8_pipeline_deterministic :
    (∀ config_data : List (String × ConfigOption),
        generate_config_types config_data = generate_config_types config_data)
    ∧ generate_config_types c2input =
        .ok (String.intercalate "\n" (headerLines ++ c2output)) :=
  ⟨fun _ => rfl, rfl⟩

/-- C9: one-to-one correspondence between internal nodes of the Key Tree
and emitted records.  The concrete conjuncts run the pipeline on the C2
scenario: the output decomposes exactly into the root record's own lines
with one embedded `generate_class` block per internal child node, and the
`@dataclass` markers count `1 + rcc` — the number of internal nodes.  The
general conjuncts hold for every tree with identifier keys: every record
in the output is `generate_class` applied to its node, carries exactly one
`@dataclass` marker per internal node of the subtree, and lists one field
line per child of the node. -/
theorem c9_record_node_correspondence :
    (make_nested_config c2input = .ok c2tree
      ∧ c2output =
          ["@dataclass", "class ConfigContainer:",
           "    \"\"\"Type for the `c` variable in `config.py`.\"\"\"",
           "    auto_save: _AutoSave"]
          ++ generate_class "_AutoSave" (.consOpt "session" sessionOpt .nil) "    " none
          ++ ["    font: _Font"]
          ++ generate_class "_Font" (.consOpt "family" familyOpt .nil) "    " none
      ∧ countDataclass c2output = 1 + rcc c2tree
      ∧ 1 + rcc c2tree = 3)
    ∧ (∀ (class_name ind : String) (t : NestedConfig) (d : Option String),
        goodTree t = true → allSpaces ind = true →
        countDataclass (generate_class class_name t ind d) = 1 + rcc t)
    ∧ (∀ (class_name ind : String) (t : NestedConfig) (d : Option String),
        goodTree t = true →
        (extractFieldNames ind (generate_class class_name t ind d)).length =
          t.childNames.length) := by
  refine ⟨⟨rfl, rfl, rfl, rfl⟩, ?_, ?_⟩
  · exact fun class_name ind t d hg hind =>
      countDataclass_generate_class class_name t ind d hg hind
  · exact fun class_name ind t d hg =>
      congrArg List.length (extract_generate_class class_name t ind d hg)

/-- C10: when the default is absent and `none_ok` is also set, the two
optionality sources compose: the field line wraps `Optional[...]` around
`get_type_hint`, which is itself `Optional[...]` around the inner
expression; concretely a nullable string with no default renders as
`Optional[Optional[str]]`. -/
theorem c10_double_optional_composition :
    (∀ (indent key : String) (v : ConfigOption) (rest : NestedConfig),
        v.default = none → v.typ.none_ok = true →
        (genFields (.consOpt key v rest) indent).head? =
          some (indent ++ "    " ++ key ++ ": Optional[" ++ get_type_hint v.typ ++ "]")
        ∧ get_type_hint v.typ = "Optional[" ++ _get_type_hint v.typ ++ "]")
    ∧ genFields (.consOpt "family" ⟨.stringT true none, none, ""⟩ .nil) "    " =
        ["        family: Optional[Optional[str]]"] := by
  refine ⟨fun indent key v rest h hn => ⟨?_, ?_⟩, rfl⟩
  · simp [genFields, h]
  · simp [get_type_hint, get_type_hint_of, hn]

end GenConfigTypes
